import Mathlib

/-!
# Sidebar order reconciler — verification

Shallow embedding of the sidebar drag-and-drop reconciliation logic of the
SpaceTabs component (the onReorder callback passed to useDnDMonitor), together
with the drop-target guards (canDrop) and the drop-completion monitor guard.

The data model follows the source:
* a sidebar item (TSidebarItem) is either a bare space reference (a string
  room id) or a folder (ISidebarFolder with id, optional name, content);
* a draggable (SidebarDraggable) is either a bare space reference or a
  FolderDraggable record holding a folder, an optional spaceId (the space
  being dragged out of an open folder) and an optional isOpen flag (set on
  the whole-folder drop target while the folder is expanded; the source
  property is called open, which is a reserved word here).

Space ids are Matrix room ids and hence nonempty strings, so the source's
JavaScript truthiness tests on optional spaceId fields coincide with
definedness, modelled by Option matching.  The fresh id produced by the
source's randomStr() call in the make-child branch is passed in explicitly
as the freshId argument.  The two effects performed by the source loop
besides building the new item list — deleting opened-folder UI state for
folders emptied by the removal phase — are returned explicitly in the
clearedFolders component of the result.
-/

abbrev SpaceId := String

/-- A sidebar folder: stable id, optional display name, ordered space ids. -/
structure ISidebarFolder where
  id : String
  name : Option String := none
  content : List SpaceId
deriving Repr, DecidableEq

/-- A top-level sidebar item: bare space reference or folder. -/
inductive TSidebarItem where
  | space (sId : SpaceId)
  | folder (f : ISidebarFolder)
deriving Repr, DecidableEq

/-- The folder-scoped draggable payload ({ folder, spaceId?, open? } in the
source; open is renamed isOpen). -/
structure FolderDraggable where
  folder : ISidebarFolder
  spaceId : Option SpaceId := none
  isOpen : Option Bool := none
deriving Repr, DecidableEq

/-- A draggable: bare space id or folder-scoped payload
(string | FolderDraggable in the source). -/
inductive SidebarDraggable where
  | space (sId : SpaceId)
  | folderDrag (fd : FolderDraggable)
deriving Repr, DecidableEq

/-- The three instruction kinds the reconciler receives.  The hitbox library
can also produce reparent, but every sidebar drop target blocks it, and a
missing instruction is filtered by the monitor guard before onReorder runs. -/
inductive InstructionType where
  | reorderAbove
  | reorderBelow
  | makeChild
deriving Repr, DecidableEq

/-- matchDest from the onReorder callback: a sidebar item matches a draggable
by string equality for bare spaces and by folder-id equality for folders. -/
def matchDest : TSidebarItem → SidebarDraggable → Bool
  | .space sI, .space dI => decide (sI = dI)
  | .folder f, .folderDrag fd => decide (f.id = fd.folder.id)
  | _, _ => false

/-- itemAsFolderContent from the onReorder callback: the space ids carried by
a draggable (a single bare space, a single space dragged out of a folder, or
a whole folder's content). -/
def itemAsFolderContent : SidebarDraggable → List SpaceId
  | .space s => [s]
  | .folderDrag fd =>
      match fd.spaceId with
      | some s => [s]
      | none => fd.folder.content

/-- The sameFolders test of the loop body: both drag and container are
folder-scoped and reference the same folder id. -/
def sameFolders : SidebarDraggable → SidebarDraggable → Bool
  | .folderDrag a, .folderDrag b => decide (a.folder.id = b.folder.id)
  | _, _ => false

/-- The removal phase of the loop (source lines around the first matchDest
test): the item at the drag origin is skipped; a space dragged out of a
folder leaves the folder without it, and if that empties the folder, the
folder is dropped and its opened-state key is emitted for deletion. -/
def removalEmit (item : SidebarDraggable) : List TSidebarItem × List String :=
  match item with
  | .folderDrag fd =>
      match fd.spaceId with
      | some ds =>
          let folderContent := fd.folder.content.filter (fun s => s ≠ ds)
          if folderContent.length = 0 then ([], [fd.folder.id])
          else ([.folder { fd.folder with content := folderContent }], [])
      | none => ([], [])
  | .space _ => ([], [])

/-- The top-level reorder branch of the loop (drop above or below a space or
a closed/opened folder). -/
def topLevelEmit (item : SidebarDraggable) (instructionType : InstructionType)
    (sameF : Bool) (i : TSidebarItem) : List TSidebarItem × List String :=
  match item with
  | .space s =>
      ((if instructionType = .reorderBelow then [i] else []) ++ [.space s] ++
        (if instructionType = .reorderAbove then [i] else []), [])
  | .folderDrag fd =>
      match fd.spaceId with
      | some ds =>
          let mid :=
            if sameF then
              match i with
              | .folder f =>
                  let newI := { f with content := f.content.filter (fun sId => sId ≠ ds) }
                  if newI.content.length > 0 then [TSidebarItem.folder newI] else []
              | .space _ => [i]
            else [i]
          ((if instructionType = .reorderAbove then [TSidebarItem.space ds] else []) ++
            mid ++
            (if instructionType = .reorderBelow then [TSidebarItem.space ds] else []), [])
      | none =>
          ((if instructionType = .reorderBelow then [i] else []) ++ [.folder fd.folder] ++
            (if instructionType = .reorderAbove then [i] else []), [])

/-- The insertion phase of the loop, entered when the current item matches the
container: make-child merging, splicing inside an open folder, or top-level
reordering. -/
def insertEmit (item containerItem : SidebarDraggable)
    (instructionType : InstructionType) (freshId : String)
    (i : TSidebarItem) : List TSidebarItem × List String :=
  if instructionType = .makeChild then
    let child := itemAsFolderContent item
    match containerItem with
    | .space cs => ([.folder { id := freshId, name := none, content := cs :: child }], [])
    | .folderDrag cfd =>
        ([.folder { cfd.folder with content := cfd.folder.content ++ child }], [])
  else
    match containerItem with
    | .folderDrag cfd =>
        match cfd.spaceId with
        | some cs =>
            let child := itemAsFolderContent item
            let newContent :=
              (cfd.folder.content.filter (fun sId => sId ∉ child)).flatMap
                (fun sId =>
                  if sId = cs then
                    if instructionType = .reorderBelow then sId :: child
                    else if instructionType = .reorderAbove then child ++ [sId]
                    else []
                  else [sId])
            ([.folder { cfd.folder with content := newContent }], [])
        | none => topLevelEmit item instructionType (sameFolders item containerItem) i
    | .space _ => topLevelEmit item instructionType (sameFolders item containerItem) i

/-- One iteration of the onReorder loop over currentItems: removal at the drag
origin (unless the drag and container share a folder), insertion at the
container, pass-through otherwise. -/
def reconcileStep (item containerItem : SidebarDraggable)
    (instructionType : InstructionType) (freshId : String)
    (i : TSidebarItem) : List TSidebarItem × List String :=
  if !(sameFolders item containerItem) && matchDest i item then removalEmit item
  else if matchDest i containerItem then
    insertEmit item containerItem instructionType freshId i
  else ([i], [])

/-- The result of a reconciliation: the new item list plus the folder ids
whose opened-folder UI state the loop deletes. -/
structure ReconcileResult where
  newItems : List TSidebarItem
  clearedFolders : List String
deriving Repr, DecidableEq

/-- The onReorder callback of SpaceTabs as a function of its inputs: a single
pass over currentItems accumulating newItems (and opened-state deletions).
freshId stands for the value returned by randomStr() in the make-child
branch. -/
def reconcile (currentItems : List TSidebarItem) (item containerItem : SidebarDraggable)
    (instructionType : InstructionType) (freshId : String) : ReconcileResult :=
  { newItems := currentItems.flatMap
      (fun i => (reconcileStep item containerItem instructionType freshId i).1)
    clearedFolders := currentItems.flatMap
      (fun i => (reconcileStep item containerItem instructionType freshId i).2) }

/-- All space ids contributed by one sidebar item (a bare entry or a folder's
content). -/
def spacesOfItem : TSidebarItem → List SpaceId
  | .space s => [s]
  | .folder f => f.content

/-- All space ids of a sidebar structure, top level and folder contents
together, in display order. -/
def spacesOf (items : List TSidebarItem) : List SpaceId :=
  items.flatMap spacesOfItem

/-- The folders of a sidebar structure. -/
def foldersOf (items : List TSidebarItem) : List ISidebarFolder :=
  items.flatMap (fun i => match i with | .folder f => [f] | .space _ => [])

/-- The folder ids of a sidebar structure. -/
def folderIds (items : List TSidebarItem) : List String :=
  (foldersOf items).map (fun f => f.id)

/-- The sidebar item a draggable originates from. -/
def draggableTarget : SidebarDraggable → TSidebarItem
  | .space s => .space s
  | .folderDrag fd => .folder fd.folder

/-- The draggable is present in the structure: a bare space occurs at top
level, a folder-scoped draggable's folder occurs at top level and its
spaceId (if any) occurs in that folder's content. -/
def presentB (items : List TSidebarItem) : SidebarDraggable → Bool
  | .space s => decide (TSidebarItem.space s ∈ items)
  | .folderDrag fd =>
      decide (TSidebarItem.folder fd.folder ∈ items) &&
        (match fd.spaceId with
          | some ds => decide (ds ∈ fd.folder.content)
          | none => true)

/-- Shapes a drag source can take (SpaceTab tabs and ClosedSpaceFolder): the
open flag is never set on a drag payload. -/
def dragShapeB : SidebarDraggable → Bool
  | .space _ => true
  | .folderDrag fd => decide (fd.isOpen = none)

/-- Shapes a drop container can take: a bare space, a space tab inside an
open folder, a closed folder, or the whole-folder drop zone of an open
folder (open flag set, no spaceId). -/
def contShapeB : SidebarDraggable → Bool
  | .space _ => true
  | .folderDrag fd =>
      match fd.spaceId with
      | some _ => decide (fd.isOpen = none)
      | none => decide (fd.isOpen = none) || decide (fd.isOpen = some true)

/-- When drag and container reference the same folder, the two payloads must
agree on whether that folder is open: a spaceId-carrying drag comes from an
open folder, whose drop targets are its tabs or its whole-folder zone,
never its closed form, and conversely. -/
def openConsistentB : SidebarDraggable → SidebarDraggable → Bool
  | .folderDrag fd, .folderDrag cd =>
      if fd.folder.id = cd.folder.id then
        decide ((fd.spaceId ≠ none) ↔ (cd.spaceId ≠ none ∨ cd.isOpen = some true))
      else true
  | _, _ => true

/-- make-child is only advertised when the container is a bare space or a
closed folder (the hitbox block list excludes it for spaceId-carrying tabs,
and open-folder zones only offer reorder instructions). -/
def instructionOkB : SidebarDraggable → InstructionType → Bool
  | _, .reorderAbove => true
  | _, .reorderBelow => true
  | cont, .makeChild =>
      match cont with
      | .space _ => true
      | .folderDrag cd => decide (cd.spaceId = none) && decide (cd.isOpen = none)

/-- Well-formed reconciler input, packaging the §3 invariants of the spec
(global uniqueness of space ids, unique folder ids, no empty folders) with
the guarantees the surrounding UI provides (drag and container present and
distinct, payload shapes, open/closed consistency, legal instruction). -/
def wellFormed (items : List TSidebarItem) (item containerItem : SidebarDraggable)
    (instructionType : InstructionType) : Bool :=
  decide (spacesOf items).Nodup &&
  decide (folderIds items).Nodup &&
  (foldersOf items).all (fun f => !f.content.isEmpty) &&
  presentB items item &&
  presentB items containerItem &&
  dragShapeB item &&
  contShapeB containerItem &&
  openConsistentB item containerItem &&
  decide (item ≠ containerItem) &&
  instructionOkB containerItem instructionType

/-- The canDrop predicate shared by useDropTarget and
useDropTargetInstruction: the drag item must differ from the candidate drop
target.  The source compares with JavaScript strict inequality; primitives
compare by value, and each folder-scoped payload is the unique stable object
rendered for its sidebar element, so under the sidebar uniqueness invariants
reference equality coincides with the value equality used here. -/
def canDrop (dragItem item : SidebarDraggable) : Bool :=
  dragItem ≠ item

/-- The onDrop guard of useDnDMonitor: with no drop targets, or a topmost
drop target carrying no instruction type, no reorder is invoked (result
none); otherwise onReorder is invoked with the drag item, the topmost
target's item and its instruction. -/
def monitorOnDrop (sourceItem : SidebarDraggable)
    (dropTargets : List (SidebarDraggable × Option InstructionType)) :
    Option (SidebarDraggable × SidebarDraggable × InstructionType) :=
  match dropTargets with
  | [] => none
  | t :: _ =>
      match t.2 with
      | none => none
      | some ins => some (sourceItem, t.1, ins)

/-! ## Basic lemmas about the structure functions -/

theorem spacesOf_nil : spacesOf [] = [] := rfl

theorem spacesOf_cons (i : TSidebarItem) (t : List TSidebarItem) :
    spacesOf (i :: t) = spacesOfItem i ++ spacesOf t := rfl

theorem spacesOf_append (a b : List TSidebarItem) :
    spacesOf (a ++ b) = spacesOf a ++ spacesOf b := by
  simp [spacesOf]

theorem spacesOf_singleton (i : TSidebarItem) : spacesOf [i] = spacesOfItem i := by
  simp [spacesOf]

theorem mem_foldersOf (f : ISidebarFolder) (items : List TSidebarItem) :
    f ∈ foldersOf items ↔ TSidebarItem.folder f ∈ items := by
  simp only [foldersOf, List.mem_flatMap]
  constructor
  · rintro ⟨i, hi, hf⟩
    cases i with
    | space s => simp at hf
    | folder g => simp at hf; simpa [hf] using hi
  · intro h
    exact ⟨.folder f, h, by simp⟩

/-! ## General list and multiset helpers -/

theorem flatMap_id_of {α : Type} (l : List α) (g : α → List α)
    (h : ∀ x ∈ l, g x = [x]) : l.flatMap g = l := by
  induction l with
  | nil => rfl
  | cons x t ih =>
      rw [List.flatMap_cons, h x (List.mem_cons_self x t),
        ih (fun y hy => h y (List.mem_cons_of_mem x hy))]
      rfl

theorem filter_sublist_flatMap {α : Type} (l : List α) (p : α → Bool) (g : α → List α)
    (h : ∀ x ∈ l, p x = true → g x = [x]) :
    List.Sublist (l.filter p) (l.flatMap g) := by
  induction l with
  | nil => simp
  | cons x t ih =>
      have iht : List.Sublist (t.filter p) (t.flatMap g) :=
        ih (fun y hy => h y (List.mem_cons_of_mem x hy))
      rw [List.flatMap_cons, List.filter_cons]
      by_cases hp : p x = true
      · rw [if_pos hp, h x (List.mem_cons_self x t) hp]
        exact List.Sublist.cons₂ x iht
      · rw [if_neg hp]
        exact List.sublist_append_of_sublist_right iht

theorem coe_cons_eq (x : SpaceId) (t : List SpaceId) :
    (↑(x :: t) : Multiset SpaceId) = ↑[x] + ↑t := rfl

theorem coe_append_eq (a b : List SpaceId) :
    (↑(a ++ b) : Multiset SpaceId) = ↑a + ↑b := rfl

/-- Multiset bookkeeping for a flatMap that is the identity away from one
element of a duplicate-free list: the result is the image of that element
together with the rest of the list. -/
theorem flatMap_insert_multiset (l : List SpaceId) (b : SpaceId) (g : SpaceId → List SpaceId)
    (hnd : l.Nodup) (hb : b ∈ l) (hother : ∀ x ∈ l, x ≠ b → g x = [x]) :
    (↑(l.flatMap g) : Multiset SpaceId) + ↑[b] = ↑(g b) + ↑l := by
  induction l with
  | nil => cases hb
  | cons x t ih =>
      rw [List.flatMap_cons]
      by_cases hx : x = b
      · subst hx
        have hxt : x ∉ t := (List.nodup_cons.mp hnd).1
        have ht : t.flatMap g = t :=
          flatMap_id_of t g (fun y hy =>
            hother y (List.mem_cons_of_mem x hy) (fun hyx => hxt (hyx ▸ hy)))
        rw [ht, coe_append_eq, coe_cons_eq x t]
        abel
      · have hbt : b ∈ t := by
          rcases List.mem_cons.mp hb with h | h
          · exact absurd h.symm hx
          · exact h
        have hgx : g x = [x] := hother x (List.mem_cons_self x t) hx
        have iht := ih (List.nodup_cons.mp hnd).2 hbt
          (fun y hy hyb => hother y (List.mem_cons_of_mem x hy) hyb)
        rw [hgx, coe_append_eq, coe_cons_eq x t, add_assoc, iht]
        abel

/-- Removing one occurrence of a present element from a duplicate-free list
by filtering, as a multiset equation. -/
theorem filter_ne_multiset (l : List SpaceId) (a : SpaceId)
    (hnd : l.Nodup) (ha : a ∈ l) :
    (↑(l.filter (fun x => x ≠ a)) : Multiset SpaceId) + ↑[a] = ↑l := by
  induction l with
  | nil => cases ha
  | cons x t ih =>
      rw [List.filter_cons]
      by_cases hx : x = a
      · subst hx
        have hxt : x ∉ t := (List.nodup_cons.mp hnd).1
        have ht : t.filter (fun y => y ≠ x) = t :=
          List.filter_eq_self.mpr (fun y hy => by
            simp only [decide_eq_true_eq]
            exact fun hyx => hxt (hyx ▸ hy))
        rw [if_neg (by simp)]
        rw [ht, coe_cons_eq]
        exact add_comm _ _
      · have hat : a ∈ t := by
          rcases List.mem_cons.mp ha with h | h
          · exact absurd h.symm hx
          · exact h
        rw [if_pos (by simp [hx])]
        have iht := ih (List.nodup_cons.mp hnd).2 hat
        rw [coe_cons_eq x, coe_cons_eq x t, add_assoc, iht]

/-! ## Unpacking well-formedness -/

theorem wellFormed_unpack {items : List TSidebarItem} {item cont : SidebarDraggable}
    {ins : InstructionType} (h : wellFormed items item cont ins = true) :
    (spacesOf items).Nodup ∧ (folderIds items).Nodup ∧
    (∀ f ∈ foldersOf items, f.content ≠ []) ∧
    presentB items item = true ∧ presentB items cont = true ∧
    dragShapeB item = true ∧ contShapeB cont = true ∧
    openConsistentB item cont = true ∧ item ≠ cont ∧
    instructionOkB cont ins = true := by
  simp only [wellFormed, Bool.and_eq_true, decide_eq_true_eq, List.all_eq_true] at h
  obtain ⟨⟨⟨⟨⟨⟨⟨⟨⟨h1, h2⟩, h3⟩, h4⟩, h5⟩, h6⟩, h7⟩, h8⟩, h9⟩, h10⟩ := h
  refine ⟨h1, h2, ?_, h4, h5, h6, h7, h8, h9, h10⟩
  intro f hf
  have := h3 f hf
  simpa using this

theorem presentB_space {items : List TSidebarItem} {s : SpaceId}
    (h : presentB items (.space s) = true) : TSidebarItem.space s ∈ items := by
  simpa [presentB] using h

theorem presentB_folder {items : List TSidebarItem} {fd : FolderDraggable}
    (h : presentB items (.folderDrag fd) = true) :
    TSidebarItem.folder fd.folder ∈ items ∧
      ∀ ds, fd.spaceId = some ds → ds ∈ fd.folder.content := by
  simp only [presentB, Bool.and_eq_true, decide_eq_true_eq] at h
  refine ⟨h.1, fun ds hds => ?_⟩
  rw [hds] at h
  simpa using h.2

theorem present_target {items : List TSidebarItem} {d : SidebarDraggable}
    (h : presentB items d = true) : draggableTarget d ∈ items := by
  cases d with
  | space s => exact presentB_space h
  | folderDrag fd => exact (presentB_folder h).1

/-! ## Facts derived from the invariants -/

/-- Each folder's content is duplicate-free when the whole structure is. -/
theorem content_nodup {items : List TSidebarItem} (h : (spacesOf items).Nodup) :
    ∀ f, TSidebarItem.folder f ∈ items → f.content.Nodup := by
  intro f hf
  rw [spacesOf, List.nodup_flatMap] at h
  exact h.1 (.folder f) hf

/-- Distinct sidebar items carry disjoint space ids when the structure is
globally duplicate-free. -/
theorem spaces_disjoint {items : List TSidebarItem} (h : (spacesOf items).Nodup) :
    ∀ i ∈ items, ∀ j ∈ items, i ≠ j →
      ∀ s, s ∈ spacesOfItem i → s ∉ spacesOfItem j := by
  rw [spacesOf, List.nodup_flatMap] at h
  have hsym : Symmetric (Function.onFun List.Disjoint spacesOfItem) := by
    intro a b hab
    exact List.Disjoint.symm hab
  intro i hi j hj hij s hs
  exact (h.2.forall hsym hi hj hij) hs

/-- Folder ids determine folders inside a structure with unique folder ids. -/
theorem folder_unique {items : List TSidebarItem} (h : (folderIds items).Nodup) :
    ∀ f g, TSidebarItem.folder f ∈ items → TSidebarItem.folder g ∈ items →
      f.id = g.id → f = g := by
  intro f g hf hg hid
  have hnf : (foldersOf items).Nodup := h.of_map _
  exact List.inj_on_of_nodup_map h
    ((mem_foldersOf f items).mpr hf) ((mem_foldersOf g items).mpr hg) hid

theorem count_space_le (items : List TSidebarItem) (s : SpaceId) :
    items.count (.space s) ≤ (spacesOf items).count s := by
  induction items with
  | nil => simp [spacesOf]
  | cons i t ih =>
      rw [spacesOf_cons, List.count_append]
      cases i with
      | space x =>
          by_cases hsx : s = x
          · subst hsx
            simp [List.count_cons, spacesOfItem] <;> omega
          · simp [List.count_cons, spacesOfItem, hsx, Ne.symm hsx] <;> omega
      | folder f =>
          simp [List.count_cons, spacesOfItem] <;> omega

theorem count_folder_le (items : List TSidebarItem) (F : ISidebarFolder) :
    items.count (.folder F) ≤ (folderIds items).count F.id := by
  induction items with
  | nil => simp [folderIds, foldersOf]
  | cons i t ih =>
      have hcons : folderIds (i :: t) =
          (match i with | .folder f => [f.id] | .space _ => []) ++ folderIds t := by
        cases i <;> rfl
      rw [hcons, List.count_append]
      cases i with
      | space x =>
          simp [List.count_cons] <;> omega
      | folder f =>
          by_cases hFf : F = f
          · subst hFf
            simp [List.count_cons] <;> omega
          · by_cases hid : F.id = f.id
            · simp [List.count_cons, hFf, ← hid] <;> omega
            · simp [List.count_cons, hFf, hid] <;> omega

/-! ## Match-target characterizations -/

theorem matchDest_space_iff (i : TSidebarItem) (s : SpaceId) :
    matchDest i (.space s) = true ↔ i = .space s := by
  cases i with
  | space x => simp [matchDest]
  | folder f => simp [matchDest]

theorem matchDest_folder_iff (i : TSidebarItem) (fd : FolderDraggable) :
    matchDest i (.folderDrag fd) = true ↔
      ∃ g, i = .folder g ∧ g.id = fd.folder.id := by
  cases i with
  | space s => simp [matchDest]
  | folder g => simp [matchDest]

/-- Under the invariants, the only item of the structure matching a draggable
is the item it originates from. -/
theorem match_eq_target {items : List TSidebarItem} {d : SidebarDraggable}
    (hfid : (folderIds items).Nodup) (hp : presentB items d = true) :
    ∀ i ∈ items, matchDest i d = true → i = draggableTarget d := by
  intro i hi hm
  cases d with
  | space s =>
      exact (matchDest_space_iff i s).mp hm
  | folderDrag fd =>
      obtain ⟨g, hg, hid⟩ := (matchDest_folder_iff i fd).mp hm
      subst hg
      have hf := (presentB_folder hp).1
      have := folder_unique hfid g fd.folder hi hf hid
      rw [this]
      rfl

theorem target_matches (d : SidebarDraggable) :
    matchDest (draggableTarget d) d = true := by
  cases d with
  | space s => simp [draggableTarget, matchDest]
  | folderDrag fd => simp [draggableTarget, matchDest]

theorem child_subset {items : List TSidebarItem} {d : SidebarDraggable}
    (hp : presentB items d = true) :
    ∀ s ∈ itemAsFolderContent d, s ∈ spacesOfItem (draggableTarget d) := by
  cases d with
  | space s => simp [itemAsFolderContent, draggableTarget, spacesOfItem]
  | folderDrag fd =>
      cases hsid : fd.spaceId with
      | none => simp [itemAsFolderContent, hsid, draggableTarget, spacesOfItem]
      | some ds =>
          have hds := (presentB_folder hp).2 ds hsid
          simp only [itemAsFolderContent, hsid, draggableTarget, spacesOfItem]
          intro s hs
          rw [List.mem_singleton] at hs
          rw [hs]
          exact hds

/-! ## Accounting for the removal and insertion branches -/

/-- The removal phase drops exactly the drag content from the drag origin
item. -/
theorem removal_perm {item : SidebarDraggable}
    (hnd : ∀ fd, item = .folderDrag fd → fd.folder.content.Nodup)
    (hmem : ∀ fd ds, item = .folderDrag fd → fd.spaceId = some ds →
      ds ∈ fd.folder.content) :
    List.Perm (spacesOf (removalEmit item).1 ++ itemAsFolderContent item)
      (spacesOfItem (draggableTarget item)) := by
  cases item with
  | space s =>
      simp [removalEmit, itemAsFolderContent, draggableTarget, spacesOfItem, spacesOf]
  | folderDrag fd =>
      cases hsid : fd.spaceId with
      | none =>
          simp [removalEmit, hsid, itemAsFolderContent, draggableTarget, spacesOfItem,
            spacesOf]
      | some ds =>
          have hnd' := hnd fd rfl
          have hds := hmem fd ds rfl hsid
          have hfil := filter_ne_multiset fd.folder.content ds hnd' hds
          simp only [removalEmit, hsid, itemAsFolderContent, draggableTarget, spacesOfItem]
          by_cases hlen : (fd.folder.content.filter (fun s => s ≠ ds)).length = 0
          · rw [if_pos hlen]
            rw [List.length_eq_zero] at hlen
            rw [hlen] at hfil
            have : List.Perm ([] ++ [ds]) fd.folder.content :=
              Multiset.coe_eq_coe.mp (by rw [coe_append_eq]; exact hfil)
            simpa [spacesOf] using this
          · rw [if_neg hlen]
            have hsp : spacesOf [TSidebarItem.folder
                { fd.folder with content := fd.folder.content.filter (fun s => s ≠ ds) }] =
                fd.folder.content.filter (fun s => s ≠ ds) := by
              simp [spacesOf, spacesOfItem]
            rw [hsp]
            exact Multiset.coe_eq_coe.mp (by rw [coe_append_eq]; exact hfil)

/-- The top-level reorder branch inserts exactly the drag content next to the
matched item when drag and container do not share a folder. -/
theorem topLevelEmit_perm (item : SidebarDraggable) (ins : InstructionType)
    (i : TSidebarItem) (hins : ins ≠ .makeChild) :
    List.Perm (spacesOf (topLevelEmit item ins false i).1)
      (itemAsFolderContent item ++ spacesOfItem i) := by
  have hins23 : ins = .reorderAbove ∨ ins = .reorderBelow := by
    cases ins with
    | reorderAbove => exact Or.inl rfl
    | reorderBelow => exact Or.inr rfl
    | makeChild => exact absurd rfl hins
  cases item with
  | space s =>
      rcases hins23 with h | h <;> subst h
      · simp [topLevelEmit, spacesOf_cons, spacesOf_nil, spacesOfItem, itemAsFolderContent]
      · simp [topLevelEmit, spacesOf_cons, spacesOf_nil, spacesOfItem, itemAsFolderContent]
        try exact @List.perm_append_comm _ (spacesOfItem i) [s]
  | folderDrag fd =>
      cases hsid : fd.spaceId with
      | some ds =>
          rcases hins23 with h | h <;> subst h
          · simp [topLevelEmit, hsid, spacesOf_cons, spacesOf_nil, spacesOfItem,
              itemAsFolderContent]
          · simp [topLevelEmit, hsid, spacesOf_cons, spacesOf_nil, spacesOfItem,
              itemAsFolderContent]
            try exact @List.perm_append_comm _ (spacesOfItem i) [ds]
      | none =>
          rcases hins23 with h | h <;> subst h
          · simp [topLevelEmit, hsid, spacesOf_cons, spacesOf_nil, spacesOfItem,
              itemAsFolderContent]
          · simp [topLevelEmit, hsid, spacesOf_cons, spacesOf_nil, spacesOfItem,
              itemAsFolderContent]
            try exact @List.perm_append_comm _ (spacesOfItem i) fd.folder.content

/-- The insertion phase adds exactly the drag content next to the container
item, when drag and container live in different folders. -/
theorem insert_perm {item cont : SidebarDraggable} {ins : InstructionType}
    {freshId : String}
    (hsf : sameFolders item cont = false)
    (hmc : instructionOkB cont ins = true)
    (hnd : ∀ cd, cont = .folderDrag cd → cd.folder.content.Nodup)
    (hcs : ∀ cd cs, cont = .folderDrag cd → cd.spaceId = some cs →
      cs ∈ cd.folder.content)
    (hdisj : ∀ s ∈ itemAsFolderContent item, s ∉ spacesOfItem (draggableTarget cont)) :
    List.Perm (spacesOf (insertEmit item cont ins freshId (draggableTarget cont)).1)
      (itemAsFolderContent item ++ spacesOfItem (draggableTarget cont)) := by
  by_cases hins : ins = .makeChild
  · subst hins
    cases cont with
    | space cs =>
        simp [insertEmit, draggableTarget, spacesOfItem, spacesOf_singleton]
        try exact @List.perm_append_comm _ [cs] (itemAsFolderContent item)
    | folderDrag cd =>
        simp [insertEmit, draggableTarget, spacesOfItem, spacesOf_singleton]
        try exact List.perm_append_comm
  · cases cont with
    | space cs =>
        have hsfc : sameFolders item (.space cs) = false := by
          cases item <;> rfl
        have htl := topLevelEmit_perm item ins (.space cs) hins
        simp only [insertEmit, if_neg hins, hsfc]
        simpa [draggableTarget, spacesOfItem] using htl
    | folderDrag cd =>
        cases hcsid : cd.spaceId with
        | some cs =>
            have hcsmem := hcs cd cs rfl hcsid
            have hcnd := hnd cd rfl
            have hdisj2 : ∀ x ∈ cd.folder.content, x ∉ itemAsFolderContent item := by
              intro x hx hxc
              exact hdisj x hxc (by
                simpa [draggableTarget, spacesOfItem] using hx)
            have hfe : cd.folder.content.filter
                (fun sId => sId ∉ itemAsFolderContent item) = cd.folder.content :=
              List.filter_eq_self.mpr (fun x hx => by
                simpa using hdisj2 x hx)
            simp only [insertEmit, if_neg hins, hcsid, spacesOf_singleton, spacesOfItem,
              draggableTarget]
            rw [hfe]
            have hmain := flatMap_insert_multiset cd.folder.content cs
              (fun sId =>
                if sId = cs then
                  if ins = .reorderBelow then sId :: itemAsFolderContent item
                  else if ins = .reorderAbove then itemAsFolderContent item ++ [sId]
                  else []
                else [sId])
              hcnd hcsmem
              (fun x _ hxb => by simp [hxb])
            have hins23 : ins = .reorderAbove ∨ ins = .reorderBelow := by
              cases ins with
              | reorderAbove => exact Or.inl rfl
              | reorderBelow => exact Or.inr rfl
              | makeChild => exact absurd rfl hins
            have hgb : (↑(if cs = cs then
                if ins = .reorderBelow then cs :: itemAsFolderContent item
                else if ins = .reorderAbove then itemAsFolderContent item ++ [cs]
                else []
              else [cs]) : Multiset SpaceId)
                = ↑(itemAsFolderContent item) + ↑[cs] := by
              rw [if_pos rfl]
              rcases hins23 with h | h <;> subst h
              · rw [if_neg (by simp), if_pos rfl, coe_append_eq]
              · rw [if_pos rfl, coe_cons_eq]
                abel
            rw [hgb] at hmain
            have hfinal := add_right_cancel (hmain.trans (by abel :
              (↑(itemAsFolderContent item) + ↑[cs] + ↑cd.folder.content :
                  Multiset SpaceId) =
                ↑(itemAsFolderContent item) + ↑cd.folder.content + ↑[cs]))
            exact Multiset.coe_eq_coe.mp (by rw [coe_append_eq]; exact hfinal)
        | none =>
            have htl := topLevelEmit_perm item ins (.folder cd.folder) hins
            simp only [insertEmit, if_neg hins, hcsid, hsf]
            simpa [draggableTarget, spacesOfItem] using htl

/-! ## Characterizing the loop step -/

theorem step_removal {item cont : SidebarDraggable} {ins : InstructionType} {fid : String}
    {i : TSidebarItem} (hsf : sameFolders item cont = false)
    (hm : matchDest i item = true) :
    reconcileStep item cont ins fid i = removalEmit item := by
  simp [reconcileStep, hsf, hm]

theorem step_insert_of_drag_false {item cont : SidebarDraggable} {ins : InstructionType}
    {fid : String} {i : TSidebarItem} (hm : matchDest i item = false)
    (hc : matchDest i cont = true) :
    reconcileStep item cont ins fid i = insertEmit item cont ins fid i := by
  simp [reconcileStep, hm, hc]

theorem step_insert_of_sameF {item cont : SidebarDraggable} {ins : InstructionType}
    {fid : String} {i : TSidebarItem} (hsf : sameFolders item cont = true)
    (hc : matchDest i cont = true) :
    reconcileStep item cont ins fid i = insertEmit item cont ins fid i := by
  simp [reconcileStep, hsf, hc]

theorem step_pass {item cont : SidebarDraggable} {ins : InstructionType}
    {fid : String} {i : TSidebarItem} (hm : matchDest i item = false)
    (hc : matchDest i cont = false) :
    reconcileStep item cont ins fid i = ([i], []) := by
  simp [reconcileStep, hm, hc]

theorem step_pass_of_sameF {item cont : SidebarDraggable} {ins : InstructionType}
    {fid : String} {i : TSidebarItem} (hsf : sameFolders item cont = true)
    (hc : matchDest i cont = false) :
    reconcileStep item cont ins fid i = ([i], []) := by
  simp [reconcileStep, hsf, hc]

/-! ## Conservation of the space-id multiset -/

/-- Pointwise multiset-preserving steps preserve the space multiset of the
whole pass. -/
theorem flatMap_multiset_congr (l : List TSidebarItem)
    (g : TSidebarItem → List TSidebarItem)
    (h : ∀ x ∈ l, (↑(spacesOf (g x)) : Multiset SpaceId) = ↑(spacesOfItem x)) :
    (↑(spacesOf (l.flatMap g)) : Multiset SpaceId) = ↑(spacesOf l) := by
  induction l with
  | nil => simp [spacesOf]
  | cons x t ih =>
      rw [List.flatMap_cons, spacesOf_append, coe_append_eq, spacesOf_cons, coe_append_eq,
        h x (List.mem_cons_self x t), ih (fun y hy => h y (List.mem_cons_of_mem x hy))]

/-- Master accounting lemma for the single pass when drag and container do
not share a folder: the output multiset differs from the input by removing
the drag content once the drag origin has been seen and adding it once the
container has been seen. -/
theorem reconcile_master (item cont : SidebarDraggable) (ins : InstructionType)
    (fid : String)
    (hsf : sameFolders item cont = false)
    (hdelM : (↑(spacesOf (removalEmit item).1) : Multiset SpaceId)
        + ↑(itemAsFolderContent item) = ↑(spacesOfItem (draggableTarget item)))
    (hinsM : (↑(spacesOf (insertEmit item cont ins fid (draggableTarget cont)).1) :
        Multiset SpaceId)
        = ↑(itemAsFolderContent item) + ↑(spacesOfItem (draggableTarget cont)))
    (hndc : matchDest (draggableTarget item) cont = false)
    (l : List TSidebarItem)
    (hcd : l.count (draggableTarget item) ≤ 1)
    (hcc : l.count (draggableTarget cont) ≤ 1)
    (hd : ∀ i ∈ l, matchDest i item = true → i = draggableTarget item)
    (hc : ∀ i ∈ l, matchDest i cont = true → i = draggableTarget cont) :
    (↑(spacesOf (l.flatMap (fun i => (reconcileStep item cont ins fid i).1))) :
        Multiset SpaceId)
      + (if l.any (fun i => matchDest i item) = true
          then (↑(itemAsFolderContent item) : Multiset SpaceId) else 0)
      = ↑(spacesOf l)
      + (if l.any (fun i => matchDest i cont) = true
          then (↑(itemAsFolderContent item) : Multiset SpaceId) else 0) := by
  induction l with
  | nil => simp [spacesOf]
  | cons x t ih =>
      have hcd2 : t.count (draggableTarget item) ≤ 1 := by
        have := hcd
        rw [List.count_cons] at this
        omega
      have hcc2 : t.count (draggableTarget cont) ≤ 1 := by
        have := hcc
        rw [List.count_cons] at this
        omega
      have hd2 : ∀ i ∈ t, matchDest i item = true → i = draggableTarget item :=
        fun i hi => hd i (List.mem_cons_of_mem x hi)
      have hc2 : ∀ i ∈ t, matchDest i cont = true → i = draggableTarget cont :=
        fun i hi => hc i (List.mem_cons_of_mem x hi)
      have iht := ih hcd2 hcc2 hd2 hc2
      by_cases hmx : matchDest x item = true
      · have hxd : x = draggableTarget item := hd x (List.mem_cons_self x t) hmx
        have hxc : matchDest x cont = false := by rw [hxd]; exact hndc
        have ht0 : t.count (draggableTarget item) = 0 := by
          rw [hxd, List.count_cons] at hcd
          simp at hcd
          omega
        have hanyt : t.any (fun i => matchDest i item) = false := by
          cases hta : t.any (fun i => matchDest i item) with
          | false => rfl
          | true =>
              obtain ⟨i, hi, hmi⟩ := List.any_eq_true.mp hta
              have hix := hd2 i hi hmi
              subst hix
              have := List.count_pos_iff.mpr hi
              omega
        have ha1 : (x :: t).any (fun i => matchDest i item) = true := by
          simp [List.any_cons, hmx]
        have ha2 : (x :: t).any (fun i => matchDest i cont)
            = t.any (fun i => matchDest i cont) := by
          simp [List.any_cons, hxc]
        rw [List.flatMap_cons, spacesOf_append, coe_append_eq, spacesOf_cons,
          coe_append_eq, step_removal hsf hmx, if_pos ha1, ha2]
        rw [if_neg (by simp [hanyt]), add_zero] at iht
        rw [iht, hxd, ← hdelM]
        abel
      · have hmx2 : matchDest x item = false := by
          cases h : matchDest x item with
          | false => rfl
          | true => exact absurd h hmx
        by_cases hcx : matchDest x cont = true
        · have hxd : x = draggableTarget cont := hc x (List.mem_cons_self x t) hcx
          have ht0 : t.count (draggableTarget cont) = 0 := by
            rw [hxd, List.count_cons] at hcc
            simp at hcc
            omega
          have hanyt : t.any (fun i => matchDest i cont) = false := by
            cases hta : t.any (fun i => matchDest i cont) with
            | false => rfl
            | true =>
                obtain ⟨i, hi, hmi⟩ := List.any_eq_true.mp hta
                have hix := hc2 i hi hmi
                subst hix
                have := List.count_pos_iff.mpr hi
                omega
          have ha1 : (x :: t).any (fun i => matchDest i cont) = true := by
            simp [List.any_cons, hcx]
          have ha2 : (x :: t).any (fun i => matchDest i item)
              = t.any (fun i => matchDest i item) := by
            simp [List.any_cons, hmx2]
          have hnc : ¬ ((t.any fun i => matchDest i cont) = true) := by
            simp [hanyt]
          rw [List.flatMap_cons, spacesOf_append, coe_append_eq, spacesOf_cons,
            coe_append_eq, step_insert_of_drag_false hmx2 hcx, if_pos ha1, ha2]
          rw [if_neg hnc, add_zero] at iht
          rw [hxd, hinsM, ← iht]
          abel
        · have hcx2 : matchDest x cont = false := by
            cases h : matchDest x cont with
            | false => rfl
            | true => exact absurd h hcx
          have ha1 : (x :: t).any (fun i => matchDest i item)
              = t.any (fun i => matchDest i item) := by
            simp [List.any_cons, hmx2]
          have ha2 : (x :: t).any (fun i => matchDest i cont)
              = t.any (fun i => matchDest i cont) := by
            simp [List.any_cons, hcx2]
          rw [List.flatMap_cons, spacesOf_append, coe_append_eq, spacesOf_cons,
            coe_append_eq, step_pass hmx2 hcx2, spacesOf_singleton, ha1, ha2,
            add_assoc, iht, ← add_assoc]

theorem targets_ne {item cont : SidebarDraggable}
    (hsf : sameFolders item cont = false) (hne : item ≠ cont) :
    draggableTarget item ≠ draggableTarget cont := by
  cases item with
  | space s =>
      cases cont with
      | space cs =>
          simp only [draggableTarget, ne_eq, TSidebarItem.space.injEq]
          intro h
          exact hne (by rw [h])
      | folderDrag cd => simp [draggableTarget]
  | folderDrag fd =>
      cases cont with
      | space cs => simp [draggableTarget]
      | folderDrag cd =>
          simp only [draggableTarget, ne_eq, TSidebarItem.folder.injEq]
          intro h
          have : fd.folder.id = cd.folder.id := by rw [h]
          simp [sameFolders, this] at hsf

theorem target_not_match_cont {item cont : SidebarDraggable}
    (hsf : sameFolders item cont = false) (hne : item ≠ cont) :
    matchDest (draggableTarget item) cont = false := by
  cases item with
  | space s =>
      cases cont with
      | space cs =>
          simp only [draggableTarget, matchDest, decide_eq_false_iff_not]
          intro h
          exact hne (by rw [h])
      | folderDrag cd => rfl
  | folderDrag fd =>
      cases cont with
      | space cs => rfl
      | folderDrag cd =>
          simp only [draggableTarget, matchDest]
          simpa [sameFolders] using hsf

theorem count_item_le_one {items : List TSidebarItem}
    (h1 : (spacesOf items).Nodup) (h2 : (folderIds items).Nodup) (i : TSidebarItem) :
    items.count i ≤ 1 := by
  cases i with
  | space s =>
      exact le_trans (count_space_le items s) (List.nodup_iff_count_le_one.mp h1 s)
  | folder F =>
      exact le_trans (count_folder_le items F) (List.nodup_iff_count_le_one.mp h2 F.id)

theorem folderDraggable_ext {a b : FolderDraggable} (h1 : a.folder = b.folder)
    (h2 : a.spaceId = b.spaceId) (h3 : a.isOpen = b.isOpen) : a = b := by
  cases a
  cases b
  simp only [FolderDraggable.mk.injEq]
  exact ⟨h1, h2, h3⟩

theorem spacesOf_mid (fid0 : String) (nm : Option String) (c : List SpaceId) :
    spacesOf (if 0 < c.length then [TSidebarItem.folder ⟨fid0, nm, c⟩] else [])
      = c := by
  by_cases hlen : 0 < c.length
  · simp [hlen, spacesOf_singleton, spacesOfItem]
  · have hnil : c = [] := List.length_eq_zero.mp (Nat.eq_zero_of_not_pos hlen)
    simp [hlen, hnil, spacesOf]

/-- Conservation: a reconciliation step permutes the multiset of space ids.
This is the backbone of the no-duplication and set-preservation claims. -/
theorem spacesOf_reconcile_perm {items : List TSidebarItem}
    {item cont : SidebarDraggable} {ins : InstructionType} {fid : String}
    (hwf : wellFormed items item cont ins = true) :
    List.Perm (spacesOf (reconcile items item cont ins fid).newItems)
      (spacesOf items) := by
  obtain ⟨h1, h2, h3, h4, h5, h6, h7, h8, h9, h10⟩ := wellFormed_unpack hwf
  by_cases hsf : sameFolders item cont = true
  · -- same-folder case: the single folder item absorbs the whole step
    cases item with
    | space s => simp [sameFolders] at hsf
    | folderDrag fd =>
        cases cont with
        | space cs => simp [sameFolders] at hsf
        | folderDrag cd =>
            have hid : fd.folder.id = cd.folder.id := by
              simpa [sameFolders] using hsf
            have hfmem := (presentB_folder h4).1
            have hcmem := (presentB_folder h5).1
            have hFeq : fd.folder = cd.folder := folder_unique h2 _ _ hfmem hcmem hid
            have hfio : fd.isOpen = none := by simpa [dragShapeB] using h6
            have hcons := h8
            simp only [openConsistentB] at hcons
            rw [if_pos hid, decide_eq_true_eq] at hcons
            have hdragOpen : ∃ ds, fd.spaceId = some ds := by
              cases hfsid : fd.spaceId with
              | some ds => exact ⟨ds, rfl⟩
              | none =>
                  exfalso
                  have hrhs : ¬ (cd.spaceId ≠ none ∨ cd.isOpen = some true) := by
                    intro hr
                    exact (by simp [hfsid] : ¬ fd.spaceId ≠ none) (hcons.mpr hr)
                  push_neg at hrhs
                  have hcio : cd.isOpen = none := by
                    have := h7
                    simp only [contShapeB, hrhs.1, Bool.or_eq_true,
                      decide_eq_true_eq] at this
                    rcases this with h | h
                    · exact h
                    · exact absurd h hrhs.2
                  exact h9 (by
                    rw [folderDraggable_ext hFeq (by rw [hfsid, hrhs.1])
                      (by rw [hfio, hcio])])
            obtain ⟨ds, hfsid⟩ := hdragOpen
            have hdsmem : ds ∈ fd.folder.content := (presentB_folder h4).2 ds hfsid
            have hcnd : cd.folder.content.Nodup := content_nodup h1 _ hcmem
            have hdsmem2 : ds ∈ cd.folder.content := hFeq ▸ hdsmem
            have hmcne : ins ≠ .makeChild := by
              intro h
              subst h
              simp only [instructionOkB, Bool.and_eq_true, decide_eq_true_eq] at h10
              have := hcons.mp (by simp [hfsid])
              rcases this with h' | h'
              · exact h' h10.1
              · rw [h10.2] at h'
                simp at h'
            have hins23 : ins = .reorderAbove ∨ ins = .reorderBelow := by
              cases ins with
              | reorderAbove => exact Or.inl rfl
              | reorderBelow => exact Or.inr rfl
              | makeChild => exact absurd rfl hmcne
            apply Multiset.coe_eq_coe.mp
            apply flatMap_multiset_congr
            intro x hx
            by_cases hcx : matchDest x (.folderDrag cd) = true
            · have hx_eq := match_eq_target h2 h5 x hx hcx
              have hx2 : x = TSidebarItem.folder cd.folder := hx_eq
              rw [step_insert_of_sameF hsf hcx, hx2]
              cases hcsid : cd.spaceId with
              | some cs =>
                  have hcs_mem : cs ∈ cd.folder.content :=
                    (presentB_folder h5).2 cs hcsid
                  have hcio : cd.isOpen = none := by
                    simp only [contShapeB, hcsid] at h7
                    simpa using h7
                  have hdscs : ds ≠ cs := by
                    intro h
                    subst h
                    exact h9 (by
                      rw [folderDraggable_ext hFeq (by rw [hfsid, hcsid])
                        (by rw [hfio, hcio])])
                  simp only [insertEmit, if_neg hmcne, hcsid, spacesOf_singleton,
                    spacesOfItem, itemAsFolderContent, hfsid, draggableTarget]
                  have hfc : cd.folder.content.filter (fun sId => sId ∉ [ds])
                      = cd.folder.content.filter (fun sId => sId ≠ ds) :=
                    List.filter_congr (by intro y hy; simp)
                  rw [hfc]
                  have hl2nd : (cd.folder.content.filter (fun sId => sId ≠ ds)).Nodup :=
                    hcnd.filter _
                  have hcsl : cs ∈ cd.folder.content.filter (fun sId => sId ≠ ds) :=
                    List.mem_filter.mpr ⟨hcs_mem, by simp [Ne.symm hdscs]⟩
                  have hmain := flatMap_insert_multiset
                    (cd.folder.content.filter (fun sId => sId ≠ ds)) cs
                    (fun sId =>
                      if sId = cs then
                        if ins = .reorderBelow then sId :: [ds]
                        else if ins = .reorderAbove then [ds] ++ [sId]
                        else []
                      else [sId])
                    hl2nd hcsl (fun y _ hyb => by simp [hyb])
                  have hgb : (↑(if cs = cs then
                      if ins = .reorderBelow then cs :: [ds]
                      else if ins = .reorderAbove then [ds] ++ [cs]
                      else []
                    else [cs]) : Multiset SpaceId) = ↑[ds] + ↑[cs] := by
                    rw [if_pos rfl]
                    rcases hins23 with h | h <;> subst h
                    · rw [if_neg (by simp), if_pos rfl, coe_append_eq]
                    · rw [if_pos rfl, coe_cons_eq]
                      abel
                  rw [hgb] at hmain
                  have hl2e := filter_ne_multiset cd.folder.content ds hcnd hdsmem2
                  have hstep2 : (↑((cd.folder.content.filter
                      (fun sId => sId ≠ ds)).flatMap
                    (fun sId =>
                      if sId = cs then
                        if ins = .reorderBelow then sId :: [ds]
                        else if ins = .reorderAbove then [ds] ++ [sId]
                        else []
                      else [sId])) : Multiset SpaceId) + ↑[cs]
                      = ↑cd.folder.content + ↑[cs] := by
                    rw [hmain, ← hl2e]
                    abel
                  exact add_right_cancel hstep2
              | none =>
                  simp only [insertEmit, if_neg hmcne, hcsid, hsf, topLevelEmit, hfsid]
                  have hl2e := filter_ne_multiset cd.folder.content ds hcnd hdsmem2
                  rcases hins23 with h | h <;> subst h <;>
                    simp only [reduceIte, spacesOf_append, spacesOf_nil,
                      spacesOf_singleton, spacesOfItem, spacesOf_mid, coe_append_eq,
                      Multiset.coe_nil, List.append_nil] <;>
                    rw [← hl2e] <;>
                    abel
            · have hcx2 : matchDest x (.folderDrag cd) = false := by
                cases h : matchDest x (.folderDrag cd) with
                | false => rfl
                | true => exact absurd h hcx
              rw [step_pass_of_sameF hsf hcx2]
              simp [spacesOf_singleton]
  · -- drag and container in different folders
    have hsf2 : sameFolders item cont = false := by
      cases h : sameFolders item cont with
      | false => rfl
      | true => exact absurd h hsf
    have hndA : ∀ fd, item = .folderDrag fd → fd.folder.content.Nodup := by
      intro fd hfd
      subst hfd
      exact content_nodup h1 _ (presentB_folder h4).1
    have hmemA : ∀ fd ds, item = .folderDrag fd → fd.spaceId = some ds →
        ds ∈ fd.folder.content := by
      intro fd ds hfd hds
      subst hfd
      exact (presentB_folder h4).2 ds hds
    have hdel := removal_perm hndA hmemA
    have hdelM : (↑(spacesOf (removalEmit item).1) : Multiset SpaceId)
        + ↑(itemAsFolderContent item)
        = ↑(spacesOfItem (draggableTarget item)) := by
      rw [← coe_append_eq]
      exact Multiset.coe_eq_coe.mpr hdel
    have hndB : ∀ cd, cont = .folderDrag cd → cd.folder.content.Nodup := by
      intro cd hcd
      subst hcd
      exact content_nodup h1 _ (presentB_folder h5).1
    have hcsB : ∀ cd cs, cont = .folderDrag cd → cd.spaceId = some cs →
        cs ∈ cd.folder.content := by
      intro cd cs hcd hcs
      subst hcd
      exact (presentB_folder h5).2 cs hcs
    have hdisj : ∀ s ∈ itemAsFolderContent item,
        s ∉ spacesOfItem (draggableTarget cont) := by
      intro s hs
      exact spaces_disjoint h1 (draggableTarget item) (present_target h4)
        (draggableTarget cont) (present_target h5) (targets_ne hsf2 h9) s
        (child_subset h4 s hs)
    have hinsP := @insert_perm item cont ins fid hsf2 h10 hndB hcsB hdisj
    have hinsM : (↑(spacesOf (insertEmit item cont ins fid
        (draggableTarget cont)).1) : Multiset SpaceId)
        = ↑(itemAsFolderContent item) + ↑(spacesOfItem (draggableTarget cont)) := by
      rw [← coe_append_eq]
      exact Multiset.coe_eq_coe.mpr hinsP
    have hndc := target_not_match_cont hsf2 h9
    have hmaster := reconcile_master item cont ins fid hsf2 hdelM hinsM hndc items
      (count_item_le_one h1 h2 _) (count_item_le_one h1 h2 _)
      (match_eq_target h2 h4) (match_eq_target h2 h5)
    have hA : items.any (fun i => matchDest i item) = true :=
      List.any_eq_true.mpr ⟨draggableTarget item, present_target h4,
        target_matches item⟩
    have hB : items.any (fun i => matchDest i cont) = true :=
      List.any_eq_true.mpr ⟨draggableTarget cont, present_target h5,
        target_matches cont⟩
    rw [if_pos hA, if_pos hB] at hmaster
    exact Multiset.coe_eq_coe.mp (add_right_cancel hmaster)

/-! ## Folder soundness of the emitted items -/

theorem folderId_mem {items : List TSidebarItem} {g : ISidebarFolder}
    (hg : TSidebarItem.folder g ∈ items) : g.id ∈ folderIds items :=
  List.mem_map.mpr ⟨g, (mem_foldersOf g items).mpr hg, rfl⟩

/-- Under well-formedness, the container space of an open-folder drop is never
part of the drag content. -/
theorem cs_not_in_child {items : List TSidebarItem} {item : SidebarDraggable}
    {cd : FolderDraggable} {cs : SpaceId} {ins : InstructionType}
    (hwf : wellFormed items item (.folderDrag cd) ins = true)
    (hcsid : cd.spaceId = some cs) :
    cs ∉ itemAsFolderContent item := by
  obtain ⟨h1, h2, h3, h4, h5, h6, h7, h8, h9, h10⟩ := wellFormed_unpack hwf
  have hcsmem : cs ∈ cd.folder.content := (presentB_folder h5).2 cs hcsid
  by_cases hsf : sameFolders item (.folderDrag cd) = true
  · cases item with
    | space s => simp [sameFolders] at hsf
    | folderDrag fd =>
        have hid : fd.folder.id = cd.folder.id := by simpa [sameFolders] using hsf
        have hFeq : fd.folder = cd.folder :=
          folder_unique h2 _ _ (presentB_folder h4).1 (presentB_folder h5).1 hid
        have hfio : fd.isOpen = none := by simpa [dragShapeB] using h6
        have hcio : cd.isOpen = none := by
          simp only [contShapeB, hcsid] at h7
          simpa using h7
        have hcons := h8
        simp only [openConsistentB] at hcons
        rw [if_pos hid, decide_eq_true_eq] at hcons
        have hfsome : fd.spaceId ≠ none := hcons.mpr (Or.inl (by simp [hcsid]))
        cases hfsid : fd.spaceId with
        | none => exact absurd hfsid hfsome
        | some ds =>
            have hdscs : ds ≠ cs := by
              intro h
              subst h
              exact h9 (by
                rw [folderDraggable_ext hFeq (by rw [hfsid, hcsid])
                  (by rw [hfio, hcio])])
            simp only [itemAsFolderContent, hfsid, List.mem_singleton]
            exact fun h => hdscs h.symm
  · have hsf2 : sameFolders item (.folderDrag cd) = false := by
      cases h : sameFolders item (.folderDrag cd) with
      | false => rfl
      | true => exact absurd h hsf
    intro hcs
    exact spaces_disjoint h1 (draggableTarget item) (present_target h4)
      (draggableTarget (.folderDrag cd)) (present_target h5)
      (targets_ne hsf2 h9) cs (child_subset h4 cs hcs)
      (by simpa [draggableTarget, spacesOfItem] using hcsmem)

/-- Every folder emitted by the top-level reorder branch is the matched item
itself, the dragged folder, or the matched folder with the dragged space
filtered out (nonempty by the guard). -/
theorem topLevelEmit_folder_mem {item : SidebarDraggable} {ins : InstructionType}
    {sf : Bool} {i : TSidebarItem} {f : ISidebarFolder}
    (hf : TSidebarItem.folder f ∈ (topLevelEmit item ins sf i).1) :
    TSidebarItem.folder f = i ∨
    (∃ fd, item = .folderDrag fd ∧ f = fd.folder) ∨
    (∃ f0, i = TSidebarItem.folder f0 ∧ f.id = f0.id ∧ f.content ≠ []) := by
  cases item with
  | space s =>
      simp only [topLevelEmit, List.mem_append, List.mem_singleton] at hf
      rcases hf with (hf | hf) | hf
      · left
        rcases List.mem_ite_nil_right.mp hf with ⟨-, h⟩
        exact List.mem_singleton.mp h
      · simp at hf
      · left
        rcases List.mem_ite_nil_right.mp hf with ⟨-, h⟩
        exact List.mem_singleton.mp h
  | folderDrag fd =>
      cases hsid : fd.spaceId with
      | some ds =>
          simp only [topLevelEmit, hsid, List.mem_append] at hf
          rcases hf with (hf | hf) | hf
          · rcases List.mem_ite_nil_right.mp hf with ⟨-, h⟩
            simp at h
          · cases hsf : sf with
            | false =>
                rw [hsf] at hf
                simp only [Bool.false_eq_true, if_false] at hf
                left
                exact List.mem_singleton.mp hf
            | true =>
                rw [hsf] at hf
                simp only [reduceIte] at hf
                cases i with
                | space x =>
                    left
                    exact List.mem_singleton.mp hf
                | folder f0 =>
                    right
                    right
                    have hf2 : TSidebarItem.folder f ∈
                        (if 0 < (f0.content.filter (fun sId => sId ≠ ds)).length
                          then [TSidebarItem.folder
                            ⟨f0.id, f0.name, f0.content.filter (fun sId => sId ≠ ds)⟩]
                          else []) := hf
                    by_cases hl2 : 0 < (f0.content.filter (fun sId => sId ≠ ds)).length
                    · rw [if_pos hl2] at hf2
                      have hfe := List.mem_singleton.mp hf2
                      have hfe2 : f = ⟨f0.id, f0.name,
                          f0.content.filter (fun sId => sId ≠ ds)⟩ := by
                        injection hfe
                      exact ⟨f0, rfl, by rw [hfe2],
                        by rw [hfe2]; exact List.ne_nil_of_length_pos hl2⟩
                    · rw [if_neg hl2] at hf2
                      simp at hf2
          · rcases List.mem_ite_nil_right.mp hf with ⟨-, h⟩
            simp at h
      | none =>
          simp only [topLevelEmit, hsid, List.mem_append, List.mem_singleton] at hf
          rcases hf with (hf | hf) | hf
          · left
            rcases List.mem_ite_nil_right.mp hf with ⟨-, h⟩
            exact List.mem_singleton.mp h
          · right
            left
            exact ⟨fd, rfl, by injection hf⟩
          · left
            rcases List.mem_ite_nil_right.mp hf with ⟨-, h⟩
            exact List.mem_singleton.mp h

/-- Every folder emitted by one loop step has nonempty content, and its id is
either an input folder id or the fresh id minted by make-child onto a bare
space. -/
theorem step_folder_sound {items : List TSidebarItem} {item cont : SidebarDraggable}
    {ins : InstructionType} {fid : String}
    (hwf : wellFormed items item cont ins = true)
    (i : TSidebarItem) (hi : i ∈ items) (f : ISidebarFolder)
    (hf : TSidebarItem.folder f ∈ (reconcileStep item cont ins fid i).1) :
    f.content ≠ [] ∧
      (f.id ∈ folderIds items ∨
        (ins = .makeChild ∧ (∃ cs, cont = .space cs) ∧ f.id = fid)) := by
  obtain ⟨h1, h2, h3, h4, h5, h6, h7, h8, h9, h10⟩ := wellFormed_unpack hwf
  have hchild_ne : itemAsFolderContent item ≠ [] := by
    cases item with
    | space s => simp [itemAsFolderContent]
    | folderDrag fd =>
        cases hsid : fd.spaceId with
        | some ds => simp [itemAsFolderContent, hsid]
        | none =>
            simp only [itemAsFolderContent, hsid]
            exact h3 fd.folder ((mem_foldersOf _ _).mpr (presentB_folder h4).1)
  by_cases hrm : (!(sameFolders item cont) && matchDest i item) = true
  · have hstep : reconcileStep item cont ins fid i = removalEmit item := by
      simp [reconcileStep, hrm]
    rw [hstep] at hf
    cases item with
    | space s => simp [removalEmit] at hf
    | folderDrag fd =>
        cases hsid : fd.spaceId with
        | none => simp [removalEmit, hsid] at hf
        | some ds =>
            simp only [removalEmit, hsid] at hf
            by_cases hlen : (fd.folder.content.filter (fun s => s ≠ ds)).length = 0
            · rw [if_pos hlen] at hf
              simp at hf
            · rw [if_neg hlen] at hf
              have hf3 := List.mem_singleton.mp hf
              injection hf3 with hf2
              constructor
              · rw [hf2]
                intro hemp
                exact hlen (List.length_eq_zero.mpr hemp)
              · left
                rw [hf2]
                exact @folderId_mem items fd.folder (presentB_folder h4).1
  · have hrm2 : (!(sameFolders item cont) && matchDest i item) = false := by
      cases h : (!(sameFolders item cont) && matchDest i item) with
      | false => rfl
      | true => exact absurd h hrm
    by_cases hcm : matchDest i cont = true
    · have hstep : reconcileStep item cont ins fid i
          = insertEmit item cont ins fid i := by
        simp [reconcileStep, hrm2, hcm]
      rw [hstep] at hf
      by_cases hmc : ins = .makeChild
      · subst hmc
        cases cont with
        | space cs =>
            have hx : TSidebarItem.folder f ∈
                [TSidebarItem.folder ⟨fid, none, cs :: itemAsFolderContent item⟩] := hf
            have hf3 := List.mem_singleton.mp hx
            injection hf3 with hf2
            refine ⟨by rw [hf2]; simp, Or.inr ⟨rfl, ⟨cs, rfl⟩, by rw [hf2]⟩⟩
        | folderDrag cd =>
            have hx : TSidebarItem.folder f ∈
                [TSidebarItem.folder ⟨cd.folder.id, cd.folder.name,
                  cd.folder.content ++ itemAsFolderContent item⟩] := hf
            have hf3 := List.mem_singleton.mp hx
            injection hf3 with hf2
            constructor
            · rw [hf2]
              intro hemp
              exact hchild_ne (List.append_eq_nil.mp hemp).2
            · left
              rw [hf2]
              exact @folderId_mem items cd.folder (presentB_folder h5).1
      · cases cont with
        | space cs =>
            have hx : TSidebarItem.folder f ∈
                (topLevelEmit item ins (sameFolders item (.space cs)) i).1 := by
              simpa [insertEmit, hmc] using hf
            rcases topLevelEmit_folder_mem hx with h | ⟨fd, hfd, hff⟩ | ⟨f0, hi0, hid0, hne0⟩
            · have hmem : TSidebarItem.folder f ∈ items := by rw [h]; exact hi
              exact ⟨h3 f ((mem_foldersOf _ _).mpr hmem), Or.inl (folderId_mem hmem)⟩
            · subst hfd
              constructor
              · rw [hff]
                exact h3 fd.folder ((mem_foldersOf _ _).mpr (presentB_folder h4).1)
              · left
                rw [hff]
                exact folderId_mem (presentB_folder h4).1
            · have hmem : TSidebarItem.folder f0 ∈ items := by rw [← hi0]; exact hi
              exact ⟨hne0, Or.inl (hid0 ▸ folderId_mem hmem)⟩
        | folderDrag cd =>
            cases hcsid : cd.spaceId with
            | some cs =>
                have hnc : (cd.folder.content.filter
                    (fun sId => sId ∉ itemAsFolderContent item)).flatMap
                    (fun sId =>
                      if sId = cs then
                        if ins = .reorderBelow then sId :: itemAsFolderContent item
                        else if ins = .reorderAbove then
                          itemAsFolderContent item ++ [sId]
                        else []
                      else [sId]) ≠ [] := by
                  intro hemp
                  have hcs_surv : cs ∈ cd.folder.content.filter
                      (fun sId => sId ∉ itemAsFolderContent item) :=
                    List.mem_filter.mpr ⟨(presentB_folder h5).2 cs hcsid,
                      by simpa using cs_not_in_child hwf hcsid⟩
                  have hz := (List.flatMap_eq_nil_iff.mp hemp) cs hcs_surv
                  rw [if_pos rfl] at hz
                  have hins23 : ins = .reorderAbove ∨ ins = .reorderBelow := by
                    cases ins with
                    | reorderAbove => exact Or.inl rfl
                    | reorderBelow => exact Or.inr rfl
                    | makeChild => exact absurd rfl hmc
                  rcases hins23 with h | h <;> subst h <;> simp at hz
                simp only [insertEmit, if_neg hmc, hcsid, List.mem_singleton] at hf
                injection hf with hf2
                constructor
                · rw [hf2]
                  exact hnc
                · left
                  rw [hf2]
                  exact @folderId_mem items cd.folder (presentB_folder h5).1
            | none =>
                have hx : TSidebarItem.folder f ∈
                    (topLevelEmit item ins
                      (sameFolders item (.folderDrag cd)) i).1 := by
                  simpa [insertEmit, hmc, hcsid] using hf
                rcases topLevelEmit_folder_mem hx with h | ⟨fd, hfd, hff⟩ |
                  ⟨f0, hi0, hid0, hne0⟩
                · have hmem : TSidebarItem.folder f ∈ items := by rw [h]; exact hi
                  exact ⟨h3 f ((mem_foldersOf _ _).mpr hmem),
                    Or.inl (folderId_mem hmem)⟩
                · subst hfd
                  constructor
                  · rw [hff]
                    exact h3 fd.folder
                      ((mem_foldersOf _ _).mpr (presentB_folder h4).1)
                  · left
                    rw [hff]
                    exact folderId_mem (presentB_folder h4).1
                · have hmem : TSidebarItem.folder f0 ∈ items := by
                    rw [← hi0]; exact hi
                  exact ⟨hne0, Or.inl (hid0 ▸ folderId_mem hmem)⟩
    · have hcm2 : matchDest i cont = false := by
        cases h : matchDest i cont with
        | false => rfl
        | true => exact absurd h hcm
      have hstep : reconcileStep item cont ins fid i = ([i], []) := by
        simp [reconcileStep, hrm2, hcm2]
      rw [hstep] at hf
      have hfi := List.mem_singleton.mp hf
      have hmem : TSidebarItem.folder f ∈ items := by rw [hfi]; exact hi
      exact ⟨h3 f ((mem_foldersOf _ _).mpr hmem), Or.inl (folderId_mem hmem)⟩

/-- Step functions for reorder instructions never look at the minted id. -/
theorem step_fresh_independent {item cont : SidebarDraggable} {ins : InstructionType}
    (h : ins ≠ .makeChild) (f1 f2 : String) (i : TSidebarItem) :
    reconcileStep item cont ins f1 i = reconcileStep item cont ins f2 i := by
  have hb : (ins = InstructionType.makeChild) = False := by simp [h]
  simp only [reconcileStep, insertEmit, hb, if_false]

/-- C1: for every well-formed input, every space identifier of the structure
appears in the reconciler output exactly once, counting bare top-level
entries and all folder contents together. -/
theorem reconcile_no_duplication (currentItems : List TSidebarItem)
    (item containerItem : SidebarDraggable) (instructionType : InstructionType)
    (freshId : String)
    (hwf : wellFormed currentItems item containerItem instructionType = true) :
    (spacesOf (reconcile currentItems item containerItem instructionType
      freshId).newItems).Nodup ∧
    ∀ s ∈ spacesOf currentItems,
      (spacesOf (reconcile currentItems item containerItem instructionType
        freshId).newItems).count s = 1 := by
  have hperm := @spacesOf_reconcile_perm currentItems item containerItem instructionType freshId hwf
  have h1 := (wellFormed_unpack hwf).1
  refine ⟨hperm.nodup_iff.mpr h1, fun s hs => ?_⟩
  rw [hperm.count_eq]
  exact List.count_eq_one_of_mem h1 hs

/-- C1 witness: on the concrete scenario input, the space id C occurs exactly
once in the output. -/
theorem reconcile_no_duplication_witness :
    ("C" ∈ spacesOf [TSidebarItem.space "A", .space "B",
        .folder ⟨"F1", none, ["C", "D"]⟩]) ∧
    (spacesOf (reconcile
        [TSidebarItem.space "A", .space "B", .folder ⟨"F1", none, ["C", "D"]⟩]
        (.folderDrag ⟨⟨"F1", none, ["C", "D"]⟩, some "C", none⟩) (.space "A")
        .reorderAbove "x").newItems).count "C" = 1 :=
  ⟨by decide,
    (reconcile_no_duplication _ _ _ _ "x" (by decide)).2 "C" (by decide)⟩

/-- C2 (amended): no folder in the output has empty content — a folder
emptied by the operation is removed from the output entirely; when the drag
item's origin folder is emptied via the removal phase (drag and container in
different folders), its opened-folder UI state is also cleared.  (The
counterexample shows the opened state is NOT cleared when the folder is
emptied by a same-folder reorder that pulls its last space to the top
level.) -/
theorem no_empty_folders (currentItems : List TSidebarItem)
    (item containerItem : SidebarDraggable) (instructionType : InstructionType)
    (freshId : String)
    (hwf : wellFormed currentItems item containerItem instructionType = true) :
    (∀ f, TSidebarItem.folder f ∈
        (reconcile currentItems item containerItem instructionType
          freshId).newItems →
      f.content ≠ []) ∧
    (∀ fd ds, item = .folderDrag fd → fd.spaceId = some ds →
      sameFolders item containerItem = false →
      fd.folder.content.filter (fun s => s ≠ ds) = [] →
      fd.folder.id ∈
        (reconcile currentItems item containerItem instructionType
          freshId).clearedFolders) := by
  constructor
  · intro f hf
    have hf2 : TSidebarItem.folder f ∈ currentItems.flatMap
        (fun i => (reconcileStep item containerItem instructionType freshId i).1) := hf
    obtain ⟨i, hi, hfi⟩ := List.mem_flatMap.mp hf2
    exact (step_folder_sound hwf i hi f hfi).1
  · intro fd ds hitem hds hsf hempty
    have h4 := (wellFormed_unpack hwf).2.2.2.1
    have hpres : TSidebarItem.folder fd.folder ∈ currentItems := by
      rw [hitem] at h4
      exact (presentB_folder h4).1
    show fd.folder.id ∈ currentItems.flatMap
      (fun i => (reconcileStep item containerItem instructionType freshId i).2)
    apply List.mem_flatMap.mpr
    refine ⟨TSidebarItem.folder fd.folder, hpres, ?_⟩
    have hm : matchDest (TSidebarItem.folder fd.folder) item = true := by
      rw [hitem]
      simp [matchDest]
    rw [step_removal hsf hm, hitem]
    simp only [removalEmit, hds]
    rw [if_pos (by rw [hempty]; rfl)]
    simp

/-- C2 witness: on the concrete scenario input, the surviving folder F1 has
the nonempty content [D]. -/
theorem no_empty_folders_witness :
    (⟨"F1", none, ["D"]⟩ : ISidebarFolder).content ≠ [] :=
  (no_empty_folders
    [TSidebarItem.space "A", .space "B", .folder ⟨"F1", none, ["C", "D"]⟩]
    (.folderDrag ⟨⟨"F1", none, ["C", "D"]⟩, some "C", none⟩) (.space "A")
    .reorderAbove "x" (by decide)).1 ⟨"F1", none, ["D"]⟩ (by decide)

/-- C2 counterexample: dragging the only space s1 out of its open folder f1
and dropping it reorder-above the folder itself (a well-formed same-folder
input) removes the emptied folder from the output, but the loop emits no
opened-state deletion for f1: clearedFolders is empty, refuting the claim
that an emptied folder always has its opened-folder UI state cleared. -/
theorem emptied_folder_state_not_cleared :
    wellFormed [.folder ⟨"f1", none, ["s1"]⟩]
        (.folderDrag ⟨⟨"f1", none, ["s1"]⟩, some "s1", none⟩)
        (.folderDrag ⟨⟨"f1", none, ["s1"]⟩, none, some true⟩) .reorderAbove
        = true ∧
      reconcile [.folder ⟨"f1", none, ["s1"]⟩]
        (.folderDrag ⟨⟨"f1", none, ["s1"]⟩, some "s1", none⟩)
        (.folderDrag ⟨⟨"f1", none, ["s1"]⟩, none, some true⟩) .reorderAbove "z"
        = ⟨[.space "s1"], []⟩ := by
  constructor
  · decide
  · rfl

/-- C4: for every well-formed input, the set of space identifiers in the
output equals the set in the input when the instruction is reorder-above or
reorder-below. -/
theorem reorder_preserves_set (currentItems : List TSidebarItem)
    (item containerItem : SidebarDraggable) (instructionType : InstructionType)
    (freshId : String)
    (hwf : wellFormed currentItems item containerItem instructionType = true)
    (hreorder : instructionType = .reorderAbove ∨
      instructionType = .reorderBelow) :
    ∀ s, s ∈ spacesOf (reconcile currentItems item containerItem instructionType
        freshId).newItems ↔ s ∈ spacesOf currentItems :=
  fun _ => (@spacesOf_reconcile_perm currentItems item containerItem instructionType freshId hwf).mem_iff

/-- C4 witness: on the concrete scenario input, D is in the output spaces
since it is in the input spaces. -/
theorem reorder_preserves_set_witness :
    "D" ∈ spacesOf (reconcile
      [TSidebarItem.space "A", .space "B", .folder ⟨"F1", none, ["C", "D"]⟩]
      (.folderDrag ⟨⟨"F1", none, ["C", "D"]⟩, some "C", none⟩) (.space "A")
      .reorderAbove "x").newItems :=
  (reorder_preserves_set _ _ _ _ "x" (by decide) (Or.inl rfl) "D").mpr (by decide)

/-- C5: every folder id in the reconciler output is either the id of an input
folder (ids are never regenerated) or the single fresh id minted by a
make-child operation whose container is a bare space. -/
theorem folder_ids_stable (currentItems : List TSidebarItem)
    (item containerItem : SidebarDraggable) (instructionType : InstructionType)
    (freshId : String)
    (hwf : wellFormed currentItems item containerItem instructionType = true) :
    ∀ f, TSidebarItem.folder f ∈
        (reconcile currentItems item containerItem instructionType
          freshId).newItems →
      f.id ∈ folderIds currentItems ∨
        (instructionType = .makeChild ∧ (∃ cs, containerItem = .space cs) ∧
          f.id = freshId) := by
  intro f hf
  have hf2 : TSidebarItem.folder f ∈ currentItems.flatMap
      (fun i => (reconcileStep item containerItem instructionType freshId i).1) := hf
  obtain ⟨i, hi, hfi⟩ := List.mem_flatMap.mp hf2
  exact (step_folder_sound hwf i hi f hfi).2

/-- C5 witness: on the concrete scenario input, the output folder F1 carries
an input folder id. -/
theorem folder_ids_stable_witness :
    "F1" ∈ folderIds [TSidebarItem.space "A", .space "B",
        .folder ⟨"F1", none, ["C", "D"]⟩] ∨
      (InstructionType.reorderAbove = .makeChild ∧
        (∃ cs, SidebarDraggable.space "A" = .space cs) ∧ "F1" = "x") :=
  folder_ids_stable
    [TSidebarItem.space "A", .space "B", .folder ⟨"F1", none, ["C", "D"]⟩]
    (.folderDrag ⟨⟨"F1", none, ["C", "D"]⟩, some "C", none⟩) (.space "A")
    .reorderAbove "x" (by decide) ⟨"F1", none, ["D"]⟩ (by decide)

/-- C6 (amended): given the id minted for a new folder, the computed item
list is a deterministic function of the inputs, and for reorder-above and
reorder-below it does not depend on the minted id at all.  (The
counterexample shows the operation as a whole is not the pure, effect-free
function the claim describes: the make-child output varies with the random
id, and the loop clears opened-folder state.) -/
theorem reorder_output_fresh_id_independent (currentItems : List TSidebarItem)
    (item containerItem : SidebarDraggable) (instructionType : InstructionType)
    (fid1 fid2 : String) (h : instructionType ≠ .makeChild) :
    reconcile currentItems item containerItem instructionType fid1 =
      reconcile currentItems item containerItem instructionType fid2 := by
  unfold reconcile
  simp only [step_fresh_independent h fid1 fid2]

/-- C6 witness: a reorder run with minted id a equals the same run with
minted id b. -/
theorem reorder_output_fresh_id_independent_witness :
    reconcile [TSidebarItem.space "A", .space "B"] (.space "A") (.space "B")
        .reorderBelow "a" =
      reconcile [TSidebarItem.space "A", .space "B"] (.space "A") (.space "B")
        .reorderBelow "b" :=
  reorder_output_fresh_id_independent _ _ _ _ "a" "b" (by decide)

/-- C6 counterexample: the reconciliation is not a pure function of
(currentItems, dragItem, containerItem, instruction).  A make-child run on a
well-formed input produces different outputs for different values returned
by randomStr, so two runs need not produce equal output sequences; and a
well-formed reorder run mutates opened-folder state (a nonempty
clearedFolders), so computing the output is not free of other effects. -/
theorem reconcile_not_pure_counterexample :
    (wellFormed [TSidebarItem.space "A", .space "B"] (.space "A") (.space "B")
        .makeChild = true ∧
      reconcile [TSidebarItem.space "A", .space "B"] (.space "A") (.space "B")
          .makeChild "u" ≠
        reconcile [TSidebarItem.space "A", .space "B"] (.space "A") (.space "B")
          .makeChild "v") ∧
    (wellFormed [.folder ⟨"f1", none, ["C"]⟩, .space "A"]
        (.folderDrag ⟨⟨"f1", none, ["C"]⟩, some "C", none⟩) (.space "A")
        .reorderAbove = true ∧
      (reconcile [.folder ⟨"f1", none, ["C"]⟩, .space "A"]
        (.folderDrag ⟨⟨"f1", none, ["C"]⟩, some "C", none⟩) (.space "A")
        .reorderAbove "w").clearedFolders = ["f1"]) :=
  ⟨⟨by decide, by decide⟩, by decide, by decide⟩

/-- C8: every item of currentItems matching neither the drag item nor the
container item appears in the output unchanged, and these unmatched items
keep their relative order (they form a sublist of the output). -/
theorem unmatched_passthrough (currentItems : List TSidebarItem)
    (item containerItem : SidebarDraggable) (instructionType : InstructionType)
    (freshId : String)
    (hwf : wellFormed currentItems item containerItem instructionType = true) :
    List.Sublist
      (currentItems.filter
        (fun i => !(matchDest i item) && !(matchDest i containerItem)))
      (reconcile currentItems item containerItem instructionType
        freshId).newItems := by
  show List.Sublist _ (currentItems.flatMap
    (fun i => (reconcileStep item containerItem instructionType freshId i).1))
  apply filter_sublist_flatMap
  intro i hi hp
  simp only [Bool.and_eq_true, Bool.not_eq_true'] at hp
  rw [step_pass hp.1 hp.2]

/-- C8 witness: on the concrete scenario input, the unmatched item B passes
through in order. -/
theorem unmatched_passthrough_witness :
    List.Sublist
      ([TSidebarItem.space "A", .space "B",
          .folder ⟨"F1", none, ["C", "D"]⟩].filter
        (fun i => !(matchDest i
            (.folderDrag ⟨⟨"F1", none, ["C", "D"]⟩, some "C", none⟩)) &&
          !(matchDest i (.space "A"))))
      (reconcile
        [TSidebarItem.space "A", .space "B", .folder ⟨"F1", none, ["C", "D"]⟩]
        (.folderDrag ⟨⟨"F1", none, ["C", "D"]⟩, some "C", none⟩) (.space "A")
        .reorderAbove "x").newItems :=
  unmatched_passthrough _ _ _ _ "x" (by decide)

/-- C3: dragging bare space A onto bare space B with make-child removes both
from the top level and produces one new folder, with the freshly minted id,
holding container first then dragged content; on input [A, B, F1] the output
is [{id: fresh, content: [B, A]}, F1], whatever id randomStr returns. -/
theorem makeChild_two_bare_spaces (freshId : String) :
    reconcile
      [.space "A", .space "B", .folder ⟨"F1", none, ["C", "D"]⟩]
      (.space "A") (.space "B") .makeChild freshId =
    ⟨[.folder ⟨freshId, none, ["B", "A"]⟩, .folder ⟨"F1", none, ["C", "D"]⟩], []⟩ := by
  rfl

/-- C7: dragging space C out of folder F1 (content [C, D]) and dropping it
reorder-above top-level space A, from top level [A, B, F1], yields top level
[C, A, B] followed by F1 with content [D]. -/
theorem reorder_out_of_folder_scenario (freshId : String) :
    reconcile
      [.space "A", .space "B", .folder ⟨"F1", none, ["C", "D"]⟩]
      (.folderDrag ⟨⟨"F1", none, ["C", "D"]⟩, some "C", none⟩)
      (.space "A") .reorderAbove freshId =
    ⟨[.space "C", .space "A", .space "B", .folder ⟨"F1", none, ["D"]⟩], []⟩ := by
  rfl

/-- C9: the canDrop predicate used by every sidebar drop target returns false
exactly when the drag item equals the candidate drop target, so a
self-referential drop is rejected before the reconciler runs. -/
theorem canDrop_false_iff_self (dragItem item : SidebarDraggable) :
    canDrop dragItem item = false ↔ dragItem = item := by
  simp [canDrop]

/-- C10: when a drop completes with an empty drop-target list, or the topmost
drop target carries no instruction type, the monitor invokes no reorder: the
result is none, so the sidebar structure is untouched and nothing is
persisted. -/
theorem monitorOnDrop_guard (sourceItem fst : SidebarDraggable)
    (rest : List (SidebarDraggable × Option InstructionType)) :
    monitorOnDrop sourceItem [] = none ∧
    monitorOnDrop sourceItem ((fst, none) :: rest) = none := by
  constructor <;> rfl
